import Mathlib

set_option maxHeartbeats 1000000

/- Verification of the emoji-catalog generator (src/generate_emojis.py).

   Shallow embedding conventions: Python strings are modelled by Lean
   `String` / `List Char`; Python's Unicode case maps by `Char.toUpper` /
   `Char.toLower` (exact on ASCII, which is all the pipeline's vocabulary
   uses); Python whitespace by the ASCII whitespace characters.  The regular
   expressions of `get_base_name` end in `.*$` or are anchored with `^`/`$`;
   they are modelled for newline-free strings (display names produced by
   `clean_emoji_name` never contain a newline, since `str.split()` consumes
   them). -/

/-- Python whitespace test used by `str.split()` / `str.strip()` (ASCII part). -/
def pyIsSpace (c : Char) : Bool :=
  c = ' ' || c = '\t' || c = '\n' || c = '\r' || c = '\x0b' || c = '\x0c'

/-- Remove trailing characters satisfying `p`. -/
def dropTrailing (p : Char → Bool) (l : List Char) : List Char :=
  (l.reverse.dropWhile p).reverse

/-- Python `s.strip()` on the underlying character list. -/
def pyStrip (l : List Char) : List Char :=
  dropTrailing pyIsSpace (l.dropWhile pyIsSpace)

/-- Python `s.strip(':')`: remove leading and trailing colons. -/
def stripColons (l : List Char) : List Char :=
  dropTrailing (fun c => c = ':') (l.dropWhile (fun c => c = ':'))

/-- Helper for Python `str.split()`; `acc` is the current word, reversed. -/
def splitWsAux : List Char → List Char → List (List Char)
  | [], acc => if acc.isEmpty then [] else [acc.reverse]
  | c :: cs, acc =>
    if pyIsSpace c then
      if acc.isEmpty then splitWsAux cs [] else acc.reverse :: splitWsAux cs []
    else
      splitWsAux cs (c :: acc)

/-- Python `s.split()`: split on whitespace runs, dropping empty pieces. -/
def pySplitWs (l : List Char) : List (List Char) :=
  splitWsAux l []

/-- Python `' '.join(ws)`. -/
def joinWithSpace : List (List Char) → List Char
  | [] => []
  | [w] => w
  | w :: x :: ws => w ++ ' ' :: joinWithSpace (x :: ws)

/-- Python `str.capitalize()`: first character uppercased, the rest lowercased. -/
def pyCapitalize : List Char → List Char
  | [] => []
  | c :: cs => c.toUpper :: cs.map Char.toLower

/-- The capitalized words of `clean_emoji_name` before joining. -/
def cleanWords (raw : String) : List (List Char) :=
  (pySplitWs ((stripColons raw.data).map (fun c => if c = '_' then ' ' else c))).map
    pyCapitalize

/-- `clean_emoji_name` (src/generate_emojis.py lines 9-14): strip colons,
    replace underscores by spaces, capitalize each whitespace-separated word,
    join with single spaces. -/
def clean_emoji_name (raw : String) : String :=
  ⟨joinWithSpace (cleanWords raw)⟩

/-- Match a literal word at the front of `l`; return the remainder. -/
def dropWord (w : List Char) (l : List Char) : Option (List Char) :=
  if w.isPrefixOf l then some (l.drop w.length) else none

/-- Match `\s+` at the front of `l`.  Every token that follows `\s+` in the
    patterns below starts with a letter, so the greedy match is the whole
    whitespace run. -/
def dropWs : List Char → Option (List Char)
  | [] => none
  | c :: cs => if pyIsSpace c then some ((c :: cs).dropWhile pyIsSpace) else none

/-- After a skin-tone colour word: `\s+Skin\s+Tone` (the trailing `.*$` of the
    pattern then consumes the rest of a newline-free string unconditionally). -/
def skinTail (t : List Char) : Bool :=
  match dropWs t with
  | none => false
  | some r2 =>
    match dropWord ("Skin").data r2 with
    | none => false
    | some r3 =>
      match dropWs r3 with
      | none => false
      | some r4 => (dropWord ("Tone").data r4).isSome

/-- Does `\s+(Light|Medium\s+Light|Medium|Medium\s+Dark|Dark)\s+Skin\s+Tone.*$`
    match at the head of `l`? -/
def skinToneAt (l : List Char) : Bool :=
  match dropWs l with
  | none => false
  | some r =>
    (match dropWord ("Light").data r with
     | some t => skinTail t
     | none => false) ||
    (match dropWord ("Medium").data r with
     | some t =>
       skinTail t ||
       (match dropWs t with
        | some t2 =>
          (match dropWord ("Light").data t2 with
           | some t3 => skinTail t3
           | none => false) ||
          (match dropWord ("Dark").data t2 with
           | some t3 => skinTail t3
           | none => false)
        | none => false)
     | none => false) ||
    (match dropWord ("Dark").data r with
     | some t => skinTail t
     | none => false)

/-- After a hair-style word: `\s+Hair` (then `.*$`). -/
def hairTail (t : List Char) : Bool :=
  match dropWs t with
  | none => false
  | some r2 => (dropWord ("Hair").data r2).isSome

/-- Does `\s+(Red|Curly|Wavy|Straight)\s+Hair.*$` match at the head of `l`? -/
def hairAt (l : List Char) : Bool :=
  match dropWs l with
  | none => false
  | some r =>
    [("Red"), ("Curly"), ("Wavy"), ("Straight")].any (fun w =>
      match dropWord w.data r with
      | some t => hairTail t
      | none => false)

/-- Index of the leftmost position at which `p` matches (Python `re` scans
    left to right). -/
def findMatchIdx (p : List Char → Bool) : List Char → Option Nat
  | [] => if p [] then some 0 else none
  | c :: cs => if p (c :: cs) then some 0 else (findMatchIdx p cs).map (· + 1)

/-- `re.sub(pat, '', s)` for a pattern `p` ending in `.*$`: cut the string at
    the leftmost match. -/
def cutAtMatch (p : List Char → Bool) (l : List Char) : List Char :=
  match findMatchIdx p l with
  | some i => l.take i
  | none => l

/-- `Option` alternation for regex alternatives (first success wins). -/
def orO {a : Type} : Option a → Option a → Option a
  | some x, _ => some x
  | none, y => y

/-- The one-character branch of `.?` in `Non.?Binary\\s+` (the character must
    not be a newline), followed by `Binary` and `\\s+`. -/
def nbCharBranch (r : List Char) : Option (List Char) :=
  match r with
  | c :: cs =>
    if c ≠ '\n' then
      match dropWord ("Binary").data cs with
      | some r2 => dropWs r2
      | none => none
    else none
  | [] => none

/-- The empty branch of `.?` in `Non.?Binary\\s+`. -/
def nbPlainBranch (r : List Char) : Option (List Char) :=
  match dropWord ("Binary").data r with
  | some r2 => dropWs r2
  | none => none

/-- `Non.?Binary\\s+`: `Non`, an optional (non-newline) character, `Binary`,
    whitespace.  The regex tries the one-character branch first. -/
def afterNonBinary (l : List Char) : Option (List Char) :=
  match dropWord ("Non").data l with
  | none => none
  | some r => orO (nbCharBranch r) (nbPlainBranch r)

/-- `^(Person|Man|Woman|Non.?Binary)\s+`: if the name starts with a gender
    word followed by whitespace, return what follows the whitespace. -/
def genderTry (w : List Char) (l : List Char) : Option (List Char) :=
  match dropWord w l with
  | some r => dropWs r
  | none => none

def afterGender (l : List Char) : Option (List Char) :=
  orO (genderTry ("Person").data l)
    (orO (genderTry ("Man").data l)
      (orO (genderTry ("Woman").data l) (afterNonBinary l)))

def skinToneRule (l : List Char) : List Char := cutAtMatch skinToneAt l

def hairRule (l : List Char) : List Char := cutAtMatch hairAt l

def genderRule (l : List Char) : List Char :=
  match afterGender l with
  | some r => r
  | none => l

/-- `re.sub(r'\s+(w)$', '', l)` for a single word `w`: if `l` ends with a
    whitespace run followed by `w`, remove that run and `w`. -/
def tryStripSuffix (w : List Char) (l : List Char) : Option (List Char) :=
  if w.isSuffixOf l then
    if (dropTrailing pyIsSpace (l.take (l.length - w.length))).length <
        (l.take (l.length - w.length)).length then
      some (dropTrailing pyIsSpace (l.take (l.length - w.length)))
    else none
  else none

/-- Alternation over the word set, in the order the pattern lists them. -/
def stripTrailingAny (ws : List (List Char)) (l : List Char) : List Char :=
  match ws with
  | [] => l
  | w :: rest =>
    match tryStripSuffix w l with
    | some r => r
    | none => stripTrailingAny rest l

def colorWords : List (List Char) :=
  [("Red").data, ("Orange").data, ("Yellow").data, ("Green").data, ("Blue").data,
   ("Purple").data, ("Brown").data, ("Black").data, ("White").data, ("Light").data,
   ("Dark").data, ("Medium").data]

def trailingModWords : List (List Char) :=
  [("Facing").data, ("Toward").data, ("Light").data, ("Dark").data]

/-- `get_base_name` (src/generate_emojis.py lines 16-35): the five removal
    rules in order, then `str.strip()`. -/
def get_base_name (emoji_name : String) : String :=
  ⟨pyStrip (stripTrailingAny trailingModWords
    (stripTrailingAny colorWords
      (genderRule (hairRule (skinToneRule emoji_name.data)))))⟩

/-- Python substring test `sub in s` on character lists. -/
def listContainsSub (sub : List Char) : List Char → Bool
  | [] => sub.isEmpty
  | c :: cs => sub.isPrefixOf (c :: cs) || listContainsSub sub cs

/-- Python `sub in s` for strings. -/
def pyInStr (sub s : String) : Bool := listContainsSub sub.data s.data

def variantMarkers : List String :=
  [("Skin Tone"), ("Hair"), ("Red"), ("Orange"), ("Yellow"), ("Green"), ("Blue"),
   ("Purple"), ("Brown"), ("Black"), ("White"), ("Curly"), ("Wavy"), ("Straight")]

/-- `should_group` (src/generate_emojis.py lines 37-47). -/
def should_group (base_name full_name : String) : Bool :=
  if base_name = full_name then false
  else variantMarkers.any (fun m => pyInStr m full_name)

/-- Python `s.lower()` (ASCII model). -/
def pyLower (s : String) : String := ⟨s.data.map Char.toLower⟩

/-- `get_category_from_name` (src/generate_emojis.py lines 105-124). -/
def get_category_from_name (emoji_name : String) : String :=
  let name := pyLower emoji_name
  if [("face"), ("smile"), ("grin"), ("laugh"), ("cry"), ("eye"), ("mouth")].any
      (fun x => pyInStr x name) then ("Smileys & Emotions")
  else if [("animal"), ("cat"), ("dog"), ("bird"), ("monkey"), ("bear"), ("panda"),
      ("fish"), ("bug"), ("butterfly"), ("lion"), ("tiger"), ("whale"), ("shark"),
      ("snake"), ("frog"), ("penguin")].any (fun x => pyInStr x name) then
    ("Animals & Nature")
  else if [("plant"), ("tree"), ("flower"), ("leaf"), ("mushroom"), ("cactus"),
      ("herb"), ("clover")].any (fun x => pyInStr x name) then ("Animals & Nature")
  else if [("food"), ("fruit"), ("pizza"), ("burger"), ("rice"), ("bread"), ("apple"),
      ("orange"), ("banana"), ("watermelon"), ("grape"), ("strawberry"), ("meat"),
      ("cake"), ("candy"), ("coffee"), ("beer"), ("wine")].any
      (fun x => pyInStr x name) then ("Food & Drink")
  else if [("car"), ("train"), ("bus"), ("airplane"), ("rocket"), ("ship"), ("boat"),
      ("bicycle"), ("motorcycle"), ("taxi"), ("truck"), ("travel")].any
      (fun x => pyInStr x name) then ("Travel & Places")
  else if [("flag"), ("country")].any (fun x => pyInStr x name) then ("Flags")
  else if [("heart"), ("star"), ("diamond"), ("gem"), ("sparkle"), ("sun"), ("moon"),
      ("cloud"), ("fire"), ("water"), ("arrow"), ("check"), ("cross")].any
      (fun x => pyInStr x name) then ("Symbols")
  else ("Symbols")

/-- Python `s.startswith(pre)`. -/
def pyStartsWith (pre s : String) : Bool := pre.data.isPrefixOf s.data

/-- Python `s.split(sep)` for a non-empty separator `s0 :: srest`, on
    character lists; `acc` is the current piece (reversed) and `skip` counts
    separator characters still to be consumed after a match. -/
def splitOnNE (s0 : Char) (srest : List Char) :
    List Char → List Char → Nat → List (List Char)
  | [], acc, _ => [acc.reverse]
  | c :: cs, acc, skip =>
    match skip with
    | k + 1 => splitOnNE s0 srest cs acc k
    | 0 =>
      if (s0 :: srest).isPrefixOf (c :: cs) then
        acc.reverse :: splitOnNE s0 srest cs [] srest.length
      else
        splitOnNE s0 srest cs (c :: acc) 0

/-- Python `s.split(sep)` (separator non-empty in every use below). -/
def pySplitOn (sep : String) (s : String) : List String :=
  match sep.data with
  | [] => [s]
  | c :: cs => (splitOnNE c cs s.data [] 0).map (fun l => (⟨l⟩ : String))

/-- `xs[1]` as used on the result of `line.split('group:')`; the guard
    `line.startswith('# group:')` guarantees at least two pieces, so the
    default is unreachable. -/
def pySecond (xs : List String) : String :=
  match xs with
  | _ :: x :: _ => x
  | _ => ("")

structure ParseState where
  cmap : List (String × String)
  group : String
  subgroup : String
deriving DecidableEq

def hexVal (c : Char) : Option Nat :=
  if '0' ≤ c ∧ c ≤ '9' then some (c.toNat - 48)
  else if 'a' ≤ c ∧ c ≤ 'f' then some (c.toNat - 87)
  else if 'A' ≤ c ∧ c ≤ 'F' then some (c.toNat - 55)
  else none

/-- Python `int(s, 16)` on the bare hexadecimal tokens of emoji-test.txt data
    lines (`none` models `ValueError`). -/
def pyIntHex (s : String) : Option Nat :=
  match s.data with
  | [] => none
  | c :: cs =>
    (c :: cs).foldl (fun acc d => acc.bind (fun a => (hexVal d).map (fun v => 16 * a + v)))
      (some 0)

def hasKeyCat (m : List (String × String)) (k : String) : Bool :=
  m.any (fun p => p.1 == k)

/-- Python `line.strip()` at `String` level. -/
def pyStripStr (s : String) : String := ⟨pyStrip s.data⟩

/-- The data-line part of the parsing loop (src/generate_emojis.py lines
    81-98): split on `;`, require at least four fields, read the first code
    point of the first field in hex, and record the current group for that
    character if unseen.  `chr(first_cp)` is modelled on Unicode scalar
    values; a non-scalar code point is skipped, which cannot change any
    lookup against real emoji keys. -/
def dataLineStep (cmap : List (String × String)) (group : String) (line : String) :
    List (String × String) :=
  if pyInStr (";") line then
    match (pySplitOn (";") line).map pyStripStr with
    | p0 :: _ :: _ :: _ :: _ =>
      match pySplitWs p0.data with
      | cp0 :: _ =>
        match pyIntHex ⟨cp0⟩ with
        | some n =>
          if h : n.isValidChar then
            if hasKeyCat cmap ⟨[Char.ofNatAux n h]⟩ then cmap
            else cmap ++ [((⟨[Char.ofNatAux n h]⟩ : String), group)]
          else cmap
        | none => cmap
      | [] => cmap
    | _ => cmap
  else cmap

/-- One iteration of the parsing loop of `fetch_unicode_emoji_data`
    (src/generate_emojis.py lines 65-98). -/
def processLine (st : ParseState) (rawLine : String) : ParseState :=
  if pyStartsWith ("# group:") (pyStripStr rawLine) then
    { st with group := pyStripStr (pySecond (pySplitOn ("group:") (pyStripStr rawLine))) }
  else if pyStartsWith ("# subgroup:") (pyStripStr rawLine) then
    { st with
        subgroup := pyStripStr (pySecond (pySplitOn ("subgroup:") (pyStripStr rawLine))) }
  else if pyStripStr rawLine = ("") ∨ pyStartsWith ("#") (pyStripStr rawLine) then st
  else { st with cmap := dataLineStep st.cmap st.group (pyStripStr rawLine) }

def initParseState : ParseState :=
  { cmap := [], group := ("Symbols"), subgroup := ("Other") }

/-- `fetch_unicode_emoji_data` (src/generate_emojis.py lines 49-103); the
    one-shot network call is modelled by its outcome, and any exception
    yields the empty classification map. -/
def fetch_unicode_emoji_data (response : Except String String) :
    List (String × String) :=
  match response with
  | Except.error _ => []
  | Except.ok data => ((pySplitOn ("\n") data).foldl processLine initParseState).cmap

structure RawRecord where
  char : String
  en : Option String
deriving DecidableEq

structure EmojiItem where
  emoji : String
  name : String
  category : String
deriving DecidableEq

structure VariantRef where
  emoji : String
  name : String
deriving DecidableEq

structure CatalogEntry where
  emoji : String
  name : String
  variants : List VariantRef
  category : String
  searchable : String
deriving DecidableEq

structure Catalog where
  emojis : List CatalogEntry
  categories : List String
  totalCount : Nat
  variantCount : Nat
deriving DecidableEq

def lookupCat (m : List (String × String)) (k : String) : Option String :=
  (m.find? (fun p => p.1 == k)).map (fun p => p.2)

/-- First loop of `generate_emoji_data` (lines 137-161): skip already-seen
    characters, normalize the raw name (`data.get('en', emoji_char)`), drop
    unusable names, and categorize (Unicode map first, heuristic fallback). -/
def buildItems (ucats : List (String × String)) :
    List RawRecord → List String → List EmojiItem
  | [], _ => []
  | r :: rs, seen =>
    if r.char ∈ seen then buildItems ucats rs seen
    else if clean_emoji_name (r.en.getD r.char) = r.char ∨
        clean_emoji_name (r.en.getD r.char) = ("") then
      buildItems ucats rs seen
    else
      { emoji := r.char, name := clean_emoji_name (r.en.getD r.char),
        category :=
          match lookupCat ucats r.char with
          | some c => c
          | none => get_category_from_name (clean_emoji_name (r.en.getD r.char)) } ::
        buildItems ucats rs (r.char :: seen)

structure GroupState where
  grouped : List (String × CatalogEntry)
  vmap : List (String × List EmojiItem)
deriving DecidableEq

def baseEntryOf (item : EmojiItem) : CatalogEntry :=
  { emoji := item.emoji, name := item.name, variants := [],
    category := item.category,
    searchable := pyLower (item.emoji ++ (" ") ++ item.name) }

def insertIfAbsent (m : List (String × CatalogEntry)) (k : String) (e : CatalogEntry) :
    List (String × CatalogEntry) :=
  if m.any (fun p => p.1 == k) then m else m ++ [(k, e)]

def appendVariant (m : List (String × List EmojiItem)) (k : String) (i : EmojiItem) :
    List (String × List EmojiItem) :=
  if m.any (fun p => p.1 == k) then
    m.map (fun p => if p.1 == k then (p.1, p.2 ++ [i]) else p)
  else m ++ [(k, [i])]

/-- Second loop of `generate_emoji_data` (lines 167-186): partition the items
    into base entries and variant groups, in encounter order. -/
def groupStep (st : GroupState) (item : EmojiItem) : GroupState :=
  if should_group (get_base_name item.name) item.name then
    { st with vmap := appendVariant st.vmap (get_base_name item.name) item }
  else
    { st with
        grouped := insertIfAbsent st.grouped (get_base_name item.name)
          (baseEntryOf item) }

def groupPass (items : List EmojiItem) : GroupState :=
  items.foldl groupStep { grouped := [], vmap := [] }

def toRef (i : EmojiItem) : VariantRef := { emoji := i.emoji, name := i.name }

def synthEntry (b : String) (first : EmojiItem) (vs : List EmojiItem) : CatalogEntry :=
  { emoji := first.emoji, name := b, variants := vs.map toRef,
    category := first.category,
    searchable := pyLower (first.emoji ++ (" ") ++ b) }

def addVariantsTo (g : List (String × CatalogEntry)) (k : String)
    (vs : List EmojiItem) : List (String × CatalogEntry) :=
  g.map (fun p =>
    if p.1 == k then (p.1, { p.2 with variants := p.2.variants ++ vs.map toRef }) else p)

/-- Third loop of `generate_emoji_data` (lines 188-206): attach each variant
    group to its base entry, synthesizing the base from the group's first
    variant when no base candidate produced that base name. -/
def attachVariants (g : List (String × CatalogEntry)) :
    List (String × List EmojiItem) → List (String × CatalogEntry)
  | [] => g
  | (b, vs) :: rest =>
    if g.any (fun p => p.1 == b) then
      attachVariants (addVariantsTo g b vs) rest
    else
      match vs with
      | [] => attachVariants g rest
      | first :: _ => attachVariants (g ++ [(b, synthEntry b first vs)]) rest

theorem str_lt_iff_data (s t : String) : s < t ↔ s.data < t.data :=
  String.lt_iff_toList_lt

theorem str_le_iff_data (s t : String) : s ≤ t ↔ ¬ t.data < s.data := by
  constructor
  · intro h hc
    exact absurd (str_lt_iff_data t s |>.mpr hc) (not_lt.mpr h)
  · intro h
    exact le_of_not_lt (fun hc => h (str_lt_iff_data t s |>.mp hc))

/-- Python tuple comparison on the sort key `(category, name)`; `<`/`≤` on
    `String` is lexicographic on code points, as in Python. -/
def entryLe (a b : CatalogEntry) : Prop :=
  a.category < b.category ∨ (a.category = b.category ∧ a.name ≤ b.name)

instance decEntryLe : DecidableRel entryLe := fun x y =>
  decidable_of_iff
    (x.category.data < y.category.data ∨
      (x.category = y.category ∧ ¬ y.name.data < x.name.data))
    (by
      unfold entryLe
      rw [str_lt_iff_data, str_le_iff_data])

/-- `≤` on `String` with a lexicographic decision procedure. -/
def strLe (s t : String) : Prop := s ≤ t

instance decStrLe : DecidableRel strLe := fun s t =>
  decidable_of_iff (¬ t.data < s.data) (str_le_iff_data s t).symm

/-- `sorted(..., key=lambda x: (x['category'], x['name']))`; Mathlib's
    insertion sort is stable, like Python's `sorted`. -/
def sortEntries (l : List CatalogEntry) : List CatalogEntry :=
  List.insertionSort entryLe l

def sortCats (l : List String) : List String :=
  List.insertionSort strLe l

instance entryLeTotal : IsTotal CatalogEntry entryLe :=
  ⟨by
    intro a b
    unfold entryLe
    rcases lt_trichotomy a.category b.category with h | h | h
    · exact Or.inl (Or.inl h)
    · rcases le_total a.name b.name with h2 | h2
      · exact Or.inl (Or.inr ⟨h, h2⟩)
      · exact Or.inr (Or.inr ⟨h.symm, h2⟩)
    · exact Or.inr (Or.inl h)⟩

instance entryLeTrans : IsTrans CatalogEntry entryLe :=
  ⟨by
    intro a b c hab hbc
    unfold entryLe at hab hbc ⊢
    rcases hab with h1 | ⟨h1, h1'⟩
    · rcases hbc with h2 | ⟨h2, h2'⟩
      · exact Or.inl (lt_trans h1 h2)
      · left
        rw [← h2]
        exact h1
    · rcases hbc with h2 | ⟨h2, h2'⟩
      · left
        rw [h1]
        exact h2
      · exact Or.inr ⟨h1.trans h2, le_trans h1' h2'⟩⟩

instance strLeTotal : IsTotal String strLe := ⟨fun a b => le_total a b⟩

instance strLeTrans : IsTrans String strLe := ⟨fun _ _ _ h1 h2 => le_trans h1 h2⟩

/-- `generate_emoji_data` (src/generate_emojis.py lines 126-222), as a
    function of the raw emoji table (`emoji.EMOJI_DATA`, in iteration order)
    and of the outcome of the network fetch. -/
def catalogEntries (records : List RawRecord) (response : Except String String) :
    List CatalogEntry :=
  sortEntries
    ((attachVariants
        (groupPass (buildItems (fetch_unicode_emoji_data response) records [])).grouped
        (groupPass (buildItems (fetch_unicode_emoji_data response) records [])).vmap).map
      (fun p => p.2))

def generate_emoji_data (records : List RawRecord)
    (response : Except String String) : Catalog :=
  { emojis := catalogEntries records response
  , categories :=
      sortCats (List.dedup ((catalogEntries records response).map (fun e => e.category)))
  , totalCount := (catalogEntries records response).length
  , variantCount :=
      ((catalogEntries records response).map (fun e => e.variants.length)).sum }

/-- Shape of a word produced by `str.capitalize` (amended C3): non-empty,
    whitespace-free, first character fixed by `toUpper`, remaining characters
    fixed by `toLower` (i.e. actually lowercased). -/
def wordShapeOk (w : List Char) : Bool :=
  match w with
  | [] => false
  | c :: cs =>
    (c.toUpper == c) && cs.all (fun d => d.toLower == d) &&
      (c :: cs).all (fun d => !pyIsSpace d)

/-- A raw record survives the unusable-name check of `generate_emoji_data`
    (line 145: `if name == emoji_char or not name: continue`). -/
def keepRecord (r : RawRecord) : Bool :=
  !(clean_emoji_name (r.en.getD r.char) == r.char ||
    clean_emoji_name (r.en.getD r.char) == (""))

/-- A line of the supplementary data that is not a `# subgroup:` line
    (after Python's `line.strip()`). -/
def keepLine (l : String) : Bool :=
  !(pyStartsWith ("# subgroup:") (pyStripStr l))

/-- Invariant of `grouped_emojis` entries created in the partition loop:
    the key rejected grouping and no variants are attached yet. -/
def basePair (p : String × CatalogEntry) : Prop :=
  should_group p.1 p.2.name = false ∧ p.2.variants = []

/-- Invariant of `variants_map` entries: non-empty, and every member grouped
    under the key. -/
def varGroup (p : String × List EmojiItem) : Prop :=
  p.2 ≠ [] ∧ ∀ i ∈ p.2, should_group p.1 i.name = true

/-- Invariant of catalog entries: either the entry rejected grouping under
    its key, or it is a synthesized entry named by its key; and no attached
    variant shares the entry's display name. -/
def goodPair (p : String × CatalogEntry) : Prop :=
  (should_group p.1 p.2.name = false ∨ p.2.name = p.1) ∧
  ∀ v ∈ p.2.variants, v.name ≠ p.2.name

theorem listContainsSub_iff (sub : List Char) (l : List Char) :
    listContainsSub sub l = true ↔ sub <:+: l := by
  induction l with
  | nil =>
    simp [listContainsSub, List.isEmpty_iff, List.infix_nil]
  | cons c cs ih =>
    simp only [listContainsSub, Bool.or_eq_true, List.isPrefixOf_iff_prefix, ih,
      List.infix_cons_iff]

theorem pyInStr_iff (sub s : String) : pyInStr sub s = true ↔ sub.data <:+: s.data :=
  listContainsSub_iff sub.data s.data

/-- C4: `should_group` returns `false` when the base name equals the display
    name, and otherwise returns `true` iff the display name contains at least
    one marker of the fixed vocabulary {"Skin Tone", "Hair", "Red", "Orange",
    "Yellow", "Green", "Blue", "Purple", "Brown", "Black", "White", "Curly",
    "Wavy", "Straight"} as a substring. -/
theorem should_group_spec (b n : String) :
    should_group b n = true ↔
      (b ≠ n ∧ ∃ m ∈ variantMarkers, m.data <:+: n.data) := by
  unfold should_group
  by_cases h : b = n
  · simp [h]
  · rw [if_neg h, List.any_eq_true]
    constructor
    · rintro ⟨m, hm, hp⟩
      exact ⟨h, m, hm, (pyInStr_iff m n).mp hp⟩
    · rintro ⟨-, m, hm, hp⟩
      exact ⟨m, hm, (pyInStr_iff m n).mpr hp⟩

theorem should_group_ne (b n : String) (h : should_group b n = true) : b ≠ n := by
  intro he
  unfold should_group at h
  rw [if_pos he] at h
  exact Bool.noConfusion h

theorem toNat_charOfNat {n : Nat} (h : n < 55296) : (Char.ofNat n).toNat = n := by
  unfold Char.ofNat
  rw [dif_pos (Or.inl h)]
  rfl

theorem toUpper_cases (c : Char) :
    (c.toUpper = c ∧ ¬(97 ≤ c.toNat ∧ c.toNat ≤ 122)) ∨
    (c.toUpper.toNat = c.toNat - 32 ∧ 97 ≤ c.toNat ∧ c.toNat ≤ 122) := by
  unfold Char.toUpper
  by_cases h : c.toNat ≥ 97 ∧ c.toNat ≤ 122
  · right
    rw [if_pos h]
    exact ⟨toNat_charOfNat (by omega), h⟩
  · left
    rw [if_neg h]
    exact ⟨rfl, h⟩

theorem toLower_cases (c : Char) :
    (c.toLower = c ∧ ¬(65 ≤ c.toNat ∧ c.toNat ≤ 90)) ∨
    (c.toLower.toNat = c.toNat + 32 ∧ 65 ≤ c.toNat ∧ c.toNat ≤ 90) := by
  unfold Char.toLower
  by_cases h : c.toNat ≥ 65 ∧ c.toNat ≤ 90
  · right
    rw [if_pos h]
    exact ⟨toNat_charOfNat (by omega), h⟩
  · left
    rw [if_neg h]
    exact ⟨rfl, h⟩

theorem toUpper_idem (c : Char) : c.toUpper.toUpper = c.toUpper := by
  rcases toUpper_cases c with ⟨h, _⟩ | ⟨h, h1, h2⟩
  · rw [h]
    exact h
  · rcases toUpper_cases c.toUpper with ⟨h', _⟩ | ⟨_, h1', h2'⟩
    · exact h'
    · exfalso
      omega

theorem toLower_idem (c : Char) : c.toLower.toLower = c.toLower := by
  rcases toLower_cases c with ⟨h, _⟩ | ⟨h, h1, h2⟩
  · rw [h]
    exact h
  · rcases toLower_cases c.toLower with ⟨h', _⟩ | ⟨_, h1', h2'⟩
    · exact h'
    · exfalso
      omega

theorem pyIsSpace_false_of_ge (u : Char) (h : 33 ≤ u.toNat) : pyIsSpace u = false := by
  unfold pyIsSpace
  have hs : ∀ d : Char, d.toNat < 33 → ¬ u = d := by
    intro d hd he
    rw [he] at h
    omega
  simp only [Bool.or_eq_false_iff, decide_eq_false_iff_not]
  exact ⟨⟨⟨⟨⟨hs _ (by decide), hs _ (by decide)⟩, hs _ (by decide)⟩, hs _ (by decide)⟩,
    hs _ (by decide)⟩, hs _ (by decide)⟩

theorem pyIsSpace_toUpper (c : Char) (h : pyIsSpace c = false) :
    pyIsSpace c.toUpper = false := by
  rcases toUpper_cases c with ⟨h1, _⟩ | ⟨h1, h2, h3⟩
  · rw [h1]
    exact h
  · exact pyIsSpace_false_of_ge _ (by omega)

theorem pyIsSpace_toLower (c : Char) (h : pyIsSpace c = false) :
    pyIsSpace c.toLower = false := by
  rcases toLower_cases c with ⟨h1, _⟩ | ⟨h1, h2, h3⟩
  · rw [h1]
    exact h
  · exact pyIsSpace_false_of_ge _ (by omega)

theorem splitWsAux_words (l : List Char) : ∀ acc,
    (∀ c ∈ acc, pyIsSpace c = false) →
    ∀ w ∈ splitWsAux l acc, w ≠ [] ∧ ∀ c ∈ w, pyIsSpace c = false := by
  induction l with
  | nil =>
    intro acc hacc w hw
    unfold splitWsAux at hw
    by_cases h : acc.isEmpty
    · rw [if_pos h] at hw
      cases hw
    · rw [if_neg h] at hw
      have hw := List.mem_singleton.mp hw
      subst hw
      refine ⟨?_, ?_⟩
      · intro hn
        exact h (List.isEmpty_iff.mpr (List.reverse_eq_nil_iff.mp hn))
      · intro c hc
        exact hacc c (List.mem_reverse.mp hc)
  | cons c cs ih =>
    intro acc hacc w hw
    unfold splitWsAux at hw
    by_cases hc : pyIsSpace c
    · rw [if_pos hc] at hw
      by_cases h : acc.isEmpty
      · rw [if_pos h] at hw
        exact ih [] (by intro x hx; cases hx) w hw
      · rw [if_neg h] at hw
        rw [List.mem_cons] at hw
        rcases hw with hw | hw
        · subst hw
          refine ⟨?_, ?_⟩
          · intro hn
            exact h (List.isEmpty_iff.mpr (List.reverse_eq_nil_iff.mp hn))
          · intro x hx
            exact hacc x (List.mem_reverse.mp hx)
        · exact ih [] (by intro x hx; cases hx) w hw
    · rw [if_neg hc] at hw
      refine ih (c :: acc) ?_ w hw
      intro x hx
      rw [List.mem_cons] at hx
      rcases hx with rfl | hx
      · exact Bool.eq_false_iff.mpr hc
      · exact hacc x hx

theorem pySplitWs_words (l : List Char) :
    ∀ w ∈ pySplitWs l, w ≠ [] ∧ ∀ c ∈ w, pyIsSpace c = false :=
  splitWsAux_words l [] (by intro c hc; cases hc)

/-- C3 (amended): the normalizer joins, with single spaces, words that are
    non-empty, whitespace-free, and fully case-normalized by `str.capitalize`:
    the first character is fixed by `toUpper` and every later character is
    fixed by `toLower` — i.e. the tail of each word IS lowercased. -/
theorem clean_emoji_name_capitalizes (raw : String) :
    (clean_emoji_name raw).data = joinWithSpace (cleanWords raw) ∧
    (cleanWords raw).all wordShapeOk = true := by
  refine ⟨rfl, ?_⟩
  rw [List.all_eq_true]
  intro w hw
  rcases List.mem_map.mp hw with ⟨w0, hw0, rfl⟩
  obtain ⟨hne, hns⟩ := pySplitWs_words _ w0 hw0
  match w0, hne with
  | c :: cs, _ =>
    unfold wordShapeOk pyCapitalize
    simp only [Bool.and_eq_true, List.all_eq_true, beq_iff_eq]
    refine ⟨⟨toUpper_idem c, ?_⟩, ?_⟩
    · intro d hd
      rcases List.mem_map.mp hd with ⟨x, _, rfl⟩
      exact toLower_idem x
    · intro d hd
      rw [List.mem_cons] at hd
      rcases hd with rfl | hd
      · simp only [Bool.not_eq_true']
        exact pyIsSpace_toUpper c (hns c (List.mem_cons_self c cs))
      · rcases List.mem_map.mp hd with ⟨x, hx, rfl⟩
        simp only [Bool.not_eq_true']
        exact pyIsSpace_toLower x (hns x (List.mem_cons_of_mem c hx))

/-- C3 is refuted on the code: Python `str.capitalize()` lowercases every
    character after the first, so a raw identifier with interior capitals
    does not keep them: `clean_emoji_name "AB" = "Ab"`, not `"AB"`. -/
theorem clean_emoji_name_lowercases_tail :
    clean_emoji_name ("AB") = ("Ab") ∧ clean_emoji_name ("AB") ≠ ("AB") := by
  decide

theorem toUpper_eq_amp (c : Char) : c.toUpper = '&' ↔ c = '&' := by
  constructor
  · intro h
    rcases toUpper_cases c with ⟨h1, _⟩ | ⟨h1, h2, h3⟩
    · exact h1.symm.trans h
    · exfalso
      have ht := congrArg Char.toNat h
      rw [h1] at ht
      have ha : ('&').toNat = 38 := rfl
      rw [ha] at ht
      omega
  · intro h
    subst h
    decide

theorem toLower_eq_amp (c : Char) : c.toLower = '&' ↔ c = '&' := by
  constructor
  · intro h
    rcases toLower_cases c with ⟨h1, _⟩ | ⟨h1, h2, h3⟩
    · exact h1.symm.trans h
    · exfalso
      have ht := congrArg Char.toNat h
      rw [h1] at ht
      have ha : ('&').toNat = 38 := rfl
      rw [ha] at ht
      omega
  · intro h
    subst h
    decide

theorem count_dropWhile (p : Char → Bool) (c : Char) (hp : p c = false) (l : List Char) :
    List.count c (l.dropWhile p) = List.count c l := by
  induction l with
  | nil => rfl
  | cons a as ih =>
    by_cases h : p a
    · rw [List.dropWhile_cons_of_pos h, ih, List.count_cons]
      have : (a == c) = false := by
        rw [beq_eq_false_iff_ne]
        intro he
        rw [he] at h
        rw [hp] at h
        cases h
      rw [this]
      rfl
    · rw [List.dropWhile_cons_of_neg h]

theorem count_dropTrailing (p : Char → Bool) (c : Char) (hp : p c = false)
    (l : List Char) : List.count c (dropTrailing p l) = List.count c l := by
  unfold dropTrailing
  rw [List.count_reverse, count_dropWhile p c hp, List.count_reverse]

theorem count_map_eq_of (f : Char → Char) (c : Char) (hf : ∀ x, f x = c ↔ x = c)
    (l : List Char) : List.count c (l.map f) = List.count c l := by
  induction l with
  | nil => rfl
  | cons a as ih =>
    rw [List.map_cons, List.count_cons, List.count_cons, ih]
    have He : (f a == c) = (a == c) := by
      by_cases h : a = c
      · rw [beq_iff_eq.mpr ((hf a).mpr h), beq_iff_eq.mpr h]
      · rw [beq_eq_false_iff_ne.mpr (fun hx => h ((hf a).mp hx)),
          beq_eq_false_iff_ne.mpr h]
    rw [He]

theorem count_joinWithSpace (c : Char) (hc : ¬ c = ' ') (ws : List (List Char)) :
    List.count c (joinWithSpace ws) = (ws.map (fun w => List.count c w)).sum := by
  match ws with
  | [] => rfl
  | [w] => simp [joinWithSpace]
  | w :: x :: rest =>
    have ih := count_joinWithSpace c hc (x :: rest)
    unfold joinWithSpace
    rw [List.count_append, List.count_cons, ih]
    have : ((' ' : Char) == c) = false := by
      rw [beq_eq_false_iff_ne]
      intro h
      exact hc h.symm
    rw [this]
    simp [Nat.add_comm]

theorem join_splitWsAux (l : List Char) : ∀ acc,
    (splitWsAux l acc).flatten = acc.reverse ++ l.filter (fun c => !pyIsSpace c) := by
  induction l with
  | nil =>
    intro acc
    unfold splitWsAux
    by_cases h : acc.isEmpty
    · rw [if_pos h, List.isEmpty_iff.mp h]
      rfl
    · rw [if_neg h]
      simp [List.flatten]
  | cons c cs ih =>
    intro acc
    unfold splitWsAux
    by_cases hc : pyIsSpace c
    · rw [if_pos hc]
      have hf : List.filter (fun c => !pyIsSpace c) (c :: cs) =
          List.filter (fun c => !pyIsSpace c) cs := by
        simp [List.filter_cons, hc]
      by_cases h : acc.isEmpty
      · rw [if_pos h, ih [], List.isEmpty_iff.mp h, hf]
      · rw [if_neg h, hf]
        simp only [List.flatten_cons, ih []]
        simp
    · rw [if_neg hc, ih (c :: acc)]
      have hc' : pyIsSpace c = false := Bool.eq_false_iff.mpr hc
      simp [List.filter_cons, hc']

theorem count_pyCapitalize_amp (w : List Char) :
    List.count '&' (pyCapitalize w) = List.count '&' w := by
  match w with
  | [] => rfl
  | c :: cs =>
    unfold pyCapitalize
    rw [List.count_cons, List.count_cons,
      count_map_eq_of Char.toLower '&' toLower_eq_amp]
    have He : (c.toUpper == '&') = (c == '&') := by
      by_cases h : c = '&'
      · rw [beq_iff_eq.mpr ((toUpper_eq_amp c).mpr h), beq_iff_eq.mpr h]
      · rw [beq_eq_false_iff_ne.mpr (fun hx => h ((toUpper_eq_amp c).mp hx)),
          beq_eq_false_iff_ne.mpr h]
    rw [He]

/-- C9: the normalizer leaves ampersands alone — the number of `'&'`
    characters in `clean_emoji_name raw` equals the number in `raw`; in
    particular no `"&"` is ever replaced by `"and"`. -/
theorem clean_emoji_name_preserves_amp (raw : String) :
    List.count '&' (clean_emoji_name raw).data = List.count '&' raw.data := by
  show List.count '&' (joinWithSpace (cleanWords raw)) = _
  rw [count_joinWithSpace '&' (by decide)]
  unfold cleanWords
  rw [List.map_map]
  have h1 : List.map ((fun w => List.count '&' w) ∘ pyCapitalize)
      (pySplitWs ((stripColons raw.data).map (fun c => if c = '_' then ' ' else c))) =
      List.map (fun w => List.count '&' w)
      (pySplitWs ((stripColons raw.data).map (fun c => if c = '_' then ' ' else c))) := by
    apply List.map_congr_left
    intro w _
    exact count_pyCapitalize_amp w
  rw [h1, ← List.count_flatten]
  unfold pySplitWs
  rw [join_splitWsAux _ []]
  rw [List.reverse_nil, List.nil_append]
  rw [List.count_filter (by decide)]
  rw [count_map_eq_of (fun c => if c = '_' then ' ' else c) '&' (by
    intro x
    constructor
    · intro h
      have h' : (if x = '_' then ' ' else x) = '&' := h
      by_cases hx : x = '_'
      · rw [if_pos hx] at h'
        exact absurd h' (by decide)
      · rwa [if_neg hx] at h'
    · intro h
      subst h
      decide)]
  unfold stripColons
  rw [count_dropTrailing _ '&' (by decide), count_dropWhile _ '&' (by decide)]

theorem fixOrShrink_comp {f g : List Char → List Char}
    (hf : ∀ l, f l = l ∨ (f l).length < l.length)
    (hg : ∀ l, g l = l ∨ (g l).length < l.length) (l : List Char) :
    g (f l) = l ∨ (g (f l)).length < l.length := by
  rcases hf l with h | h
  · rw [h]
    exact hg l
  · rcases hg (f l) with h2 | h2
    · rw [h2]
      right
      exact h
    · right
      exact Nat.lt_trans h2 h

theorem length_dropWhile_ws_le (p : Char → Bool) (l : List Char) :
    (l.dropWhile p).length ≤ l.length := by
  induction l with
  | nil => exact Nat.le_refl 0
  | cons a as ih =>
    by_cases h : p a
    · rw [List.dropWhile_cons_of_pos h]
      exact Nat.le_trans ih (Nat.le_succ _)
    · rw [List.dropWhile_cons_of_neg h]

theorem dropWhile_fix_or_shrink (p : Char → Bool) (l : List Char) :
    l.dropWhile p = l ∨ (l.dropWhile p).length < l.length := by
  cases l with
  | nil => left; rfl
  | cons a as =>
    by_cases h : p a
    · right
      rw [List.dropWhile_cons_of_pos h]
      exact Nat.lt_succ_of_le (length_dropWhile_ws_le p as)
    · left
      rw [List.dropWhile_cons_of_neg h]

theorem dropTrailing_fix_or_shrink (p : Char → Bool) (l : List Char) :
    dropTrailing p l = l ∨ (dropTrailing p l).length < l.length := by
  unfold dropTrailing
  rcases dropWhile_fix_or_shrink p l.reverse with h | h
  · left
    rw [h, List.reverse_reverse]
  · right
    rw [List.length_reverse]
    rwa [List.length_reverse] at h

theorem pyStrip_fix_or_shrink (l : List Char) :
    pyStrip l = l ∨ (pyStrip l).length < l.length :=
  fixOrShrink_comp (dropWhile_fix_or_shrink pyIsSpace)
    (dropTrailing_fix_or_shrink pyIsSpace) l

theorem findMatchIdx_lt (p : List Char → Bool) (hp : p [] = false) :
    ∀ l i, findMatchIdx p l = some i → i < l.length := by
  intro l
  induction l with
  | nil =>
    intro i h
    simp [findMatchIdx, hp] at h
  | cons c cs ih =>
    intro i h
    unfold findMatchIdx at h
    by_cases hc : p (c :: cs)
    · rw [if_pos hc] at h
      have hi := Option.some.inj h
      subst hi
      exact Nat.succ_pos _
    · rw [if_neg hc] at h
      rcases Option.map_eq_some'.mp h with ⟨j, hj, hji⟩
      subst hji
      exact Nat.succ_lt_succ (ih j hj)

theorem cutAtMatch_fix_or_shrink (p : List Char → Bool) (hp : p [] = false)
    (l : List Char) : cutAtMatch p l = l ∨ (cutAtMatch p l).length < l.length := by
  unfold cutAtMatch
  cases hfm : findMatchIdx p l with
  | none => left; rfl
  | some i =>
    right
    have hlt := findMatchIdx_lt p hp l i hfm
    show (l.take i).length < l.length
    rw [List.length_take]
    omega

theorem dropWs_shrink (l r : List Char) (h : dropWs l = some r) :
    r.length < l.length := by
  cases l with
  | nil => simp [dropWs] at h
  | cons c cs =>
    simp only [dropWs] at h
    by_cases hc : pyIsSpace c
    · rw [if_pos hc] at h
      have hr := Option.some.inj h
      subst hr
      rw [List.dropWhile_cons_of_pos hc]
      exact Nat.lt_succ_of_le (length_dropWhile_ws_le pyIsSpace cs)
    · rw [if_neg hc] at h
      cases h

theorem dropWord_le (w l r : List Char) (h : dropWord w l = some r) :
    r.length ≤ l.length := by
  unfold dropWord at h
  by_cases hw : w.isPrefixOf l
  · rw [if_pos hw] at h
    have hr := Option.some.inj h
    subst hr
    rw [List.length_drop]
    omega
  · rw [if_neg hw] at h
    cases h

theorem genderTry_shrink (w l r : List Char) (h : genderTry w l = some r) :
    r.length < l.length := by
  unfold genderTry at h
  cases hd : dropWord w l with
  | none => rw [hd] at h; cases h
  | some r1 =>
    rw [hd] at h
    exact Nat.lt_of_lt_of_le (dropWs_shrink r1 r h) (dropWord_le w l r1 hd)

theorem orO_shrink {P : List Char → Prop} (a b : Option (List Char))
    (ha : ∀ r, a = some r → P r) (hb : ∀ r, b = some r → P r) :
    ∀ r, orO a b = some r → P r := by
  intro r h
  cases a with
  | some x => exact ha r h
  | none => exact hb r h

theorem nbCharBranch_shrink (t r : List Char) (h : nbCharBranch t = some r) :
    r.length < t.length := by
  cases t with
  | nil => simp [nbCharBranch] at h
  | cons c cs =>
    simp only [nbCharBranch] at h
    by_cases hc : c ≠ '\n'
    · rw [if_pos hc] at h
      revert h
      cases hdb : dropWord ("Binary").data cs with
      | none => intro h; cases h
      | some r2 =>
        intro h
        have h2 : r2.length ≤ cs.length := dropWord_le _ cs r2 hdb
        have h3 : r.length < r2.length := dropWs_shrink r2 r h
        have h4 : (c :: cs).length = cs.length + 1 := rfl
        omega
    · rw [if_neg hc] at h
      cases h

theorem nbPlainBranch_shrink (t r : List Char) (h : nbPlainBranch t = some r) :
    r.length ≤ t.length := by
  unfold nbPlainBranch at h
  revert h
  cases hdb : dropWord ("Binary").data t with
  | none => intro h; cases h
  | some r2 =>
    intro h
    have h2 : r2.length ≤ t.length := dropWord_le _ t r2 hdb
    have h3 : r.length < r2.length := dropWs_shrink r2 r h
    omega

theorem afterNonBinary_shrink (l r : List Char) (h : afterNonBinary l = some r) :
    r.length < l.length := by
  unfold afterNonBinary at h
  revert h
  cases hd : dropWord ("Non").data l with
  | none => intro h; cases h
  | some r1 =>
    intro h
    have hr1 : r1.length ≤ l.length := dropWord_le _ l r1 hd
    have hw : ("Non").data.isPrefixOf l = true := by
      by_contra hb
      rw [Bool.not_eq_true] at hb
      unfold dropWord at hd
      rw [if_neg (by rw [hb]; exact fun hx => Bool.false_ne_true hx)] at hd
      cases hd
    have hr1e : r1 = l.drop 3 := by
      unfold dropWord at hd
      rw [if_pos hw] at hd
      exact (Option.some.inj hd).symm
    have hlen : 3 ≤ l.length := by
      have := List.IsPrefix.length_le (List.isPrefixOf_iff_prefix.mp hw)
      exact this
    have hr1lt : r1.length < l.length := by
      rw [hr1e, List.length_drop]
      omega
    exact orO_shrink (nbCharBranch r1) (nbPlainBranch r1)
      (fun r' h' => Nat.lt_trans (nbCharBranch_shrink r1 r' h') hr1lt)
      (fun r' h' => Nat.lt_of_le_of_lt (nbPlainBranch_shrink r1 r' h') hr1lt)
      r h

theorem afterGender_shrink (l r : List Char) (h : afterGender l = some r) :
    r.length < l.length := by
  unfold afterGender at h
  exact orO_shrink _ _
    (fun r' h' => genderTry_shrink _ l r' h')
    (orO_shrink _ _
      (fun r' h' => genderTry_shrink _ l r' h')
      (orO_shrink _ _
        (fun r' h' => genderTry_shrink _ l r' h')
        (fun r' h' => afterNonBinary_shrink l r' h'))) r h

theorem genderRule_fix_or_shrink (l : List Char) :
    genderRule l = l ∨ (genderRule l).length < l.length := by
  unfold genderRule
  cases hg : afterGender l with
  | none => left; rfl
  | some r =>
    right
    exact afterGender_shrink l r hg

theorem tryStripSuffix_shrink (w l r : List Char) (h : tryStripSuffix w l = some r) :
    r.length < l.length := by
  unfold tryStripSuffix at h
  by_cases hw : w.isSuffixOf l
  · rw [if_pos hw] at h
    by_cases h2 : (dropTrailing pyIsSpace (l.take (l.length - w.length))).length <
        (l.take (l.length - w.length)).length
    · rw [if_pos h2] at h
      have hr := Option.some.inj h
      subst hr
      have h3 : (l.take (l.length - w.length)).length ≤ l.length := by
        rw [List.length_take]
        omega
      omega
    · rw [if_neg h2] at h
      cases h
  · rw [if_neg hw] at h
    cases h

theorem stripTrailingAny_fix_or_shrink (ws : List (List Char)) (l : List Char) :
    stripTrailingAny ws l = l ∨ (stripTrailingAny ws l).length < l.length := by
  induction ws with
  | nil => left; rfl
  | cons w rest ih =>
    unfold stripTrailingAny
    cases ht : tryStripSuffix w l with
    | none => exact ih
    | some r =>
      right
      exact tryStripSuffix_shrink w l r ht

/-- C2 (amended): base-name extraction is not idempotent, but every
    application either returns its input unchanged or strictly shortens it,
    so iterating `get_base_name` always reaches a fixed point. -/
theorem get_base_name_fix_or_shrink (s : String) :
    get_base_name s = s ∨ (get_base_name s).length < s.length := by
  have h1 : ∀ l : List Char, skinToneRule l = l ∨ (skinToneRule l).length < l.length :=
    fun l => cutAtMatch_fix_or_shrink skinToneAt rfl l
  have hh : ∀ l : List Char, hairRule l = l ∨ (hairRule l).length < l.length :=
    fun l => cutAtMatch_fix_or_shrink hairAt rfl l
  have h2 : ∀ l : List Char, hairRule (skinToneRule l) = l ∨
      (hairRule (skinToneRule l)).length < l.length :=
    fun l => fixOrShrink_comp h1 hh l
  have h3 : ∀ l : List Char, genderRule (hairRule (skinToneRule l)) = l ∨
      (genderRule (hairRule (skinToneRule l))).length < l.length :=
    fun l => fixOrShrink_comp h2 genderRule_fix_or_shrink l
  have h4 : ∀ l : List Char,
      stripTrailingAny colorWords (genderRule (hairRule (skinToneRule l))) = l ∨
      (stripTrailingAny colorWords (genderRule (hairRule (skinToneRule l)))).length <
        l.length :=
    fun l => fixOrShrink_comp h3 (stripTrailingAny_fix_or_shrink colorWords) l
  have h5 : ∀ l : List Char,
      stripTrailingAny trailingModWords (stripTrailingAny colorWords
        (genderRule (hairRule (skinToneRule l)))) = l ∨
      (stripTrailingAny trailingModWords (stripTrailingAny colorWords
        (genderRule (hairRule (skinToneRule l))))).length < l.length :=
    fun l => fixOrShrink_comp h4 (stripTrailingAny_fix_or_shrink trailingModWords) l
  have h6 := fixOrShrink_comp h5 pyStrip_fix_or_shrink s.data
  rcases h6 with h | h
  · left
    cases s with
    | mk d => exact congrArg String.mk h
  · right
    exact h

/-- C2 is refuted on the code: for the reachable display name
    `"A Light Light Light"` (from raw `":a_light_light_light:"`), one
    application of `get_base_name` gives `"A Light"` (rule 4 strips one
    trailing `Light`, rule 5 another), and a second application strips
    further, to `"A"`. -/
theorem get_base_name_not_idempotent :
    clean_emoji_name (":a_light_light_light:") = ("A Light Light Light") ∧
    get_base_name (clean_emoji_name (":a_light_light_light:")) = ("A Light") ∧
    get_base_name (get_base_name (clean_emoji_name (":a_light_light_light:"))) =
      ("A") ∧
    get_base_name (get_base_name (clean_emoji_name (":a_light_light_light:"))) ≠
      get_base_name (clean_emoji_name (":a_light_light_light:")) := by
  decide

theorem keepRecord_iff (r : RawRecord) :
    keepRecord r = false ↔
      (clean_emoji_name (r.en.getD r.char) = r.char ∨
       clean_emoji_name (r.en.getD r.char) = ("")) := by
  unfold keepRecord
  simp only [Bool.not_eq_false', Bool.or_eq_true, beq_iff_eq]

theorem buildItems_cons (ucats : List (String × String)) (r : RawRecord)
    (rs : List RawRecord) (seen : List String) :
    buildItems ucats (r :: rs) seen =
      if r.char ∈ seen then buildItems ucats rs seen
      else if clean_emoji_name (r.en.getD r.char) = r.char ∨
          clean_emoji_name (r.en.getD r.char) = ("") then buildItems ucats rs seen
      else
        { emoji := r.char, name := clean_emoji_name (r.en.getD r.char),
          category :=
            match lookupCat ucats r.char with
            | some c => c
            | none => get_category_from_name (clean_emoji_name (r.en.getD r.char)) } ::
          buildItems ucats rs (r.char :: seen) := rfl

theorem buildItems_filter (ucats : List (String × String)) (records : List RawRecord) :
    ∀ seen, buildItems ucats records seen =
      buildItems ucats (records.filter keepRecord) seen := by
  induction records with
  | nil => intro seen; rfl
  | cons r rs ih =>
    intro seen
    by_cases hk : keepRecord r
    · rw [List.filter_cons_of_pos hk, buildItems_cons, buildItems_cons]
      by_cases hs : r.char ∈ seen
      · rw [if_pos hs, if_pos hs]
        exact ih seen
      · rw [if_neg hs, if_neg hs]
        have hnc : ¬(clean_emoji_name (r.en.getD r.char) = r.char ∨
            clean_emoji_name (r.en.getD r.char) = ("")) := by
          intro hx
          rw [← keepRecord_iff] at hx
          rw [hx] at hk
          exact Bool.false_ne_true hk
        rw [if_neg hnc, if_neg hnc, ih (r.char :: seen)]
    · have hkf : keepRecord r = false := Bool.eq_false_iff.mpr hk
      rw [List.filter_cons_of_neg (by rw [hkf]; exact fun hx => Bool.false_ne_true hx),
        buildItems_cons]
      by_cases hs : r.char ∈ seen
      · rw [if_pos hs]
        exact ih seen
      · rw [if_neg hs, if_pos (keepRecord_iff r |>.mp hkf)]
        exact ih seen

/-- C6: a raw record whose normalized name is empty or equal to its own
    emoji character contributes nothing to the catalog: the pipeline output
    on any record list equals the output on the list with all such records
    removed, and `keepRecord` is false exactly on such records. -/
theorem generate_drops_unusable (records : List RawRecord)
    (response : Except String String) :
    generate_emoji_data records response =
      generate_emoji_data (records.filter keepRecord) response ∧
    ∀ r : RawRecord, keepRecord r = false ↔
      (clean_emoji_name (r.en.getD r.char) = r.char ∨
       clean_emoji_name (r.en.getD r.char) = ("")) := by
  constructor
  · unfold generate_emoji_data catalogEntries
    rw [buildItems_filter]
  · exact keepRecord_iff

theorem buildItems_empty_ucats (records : List RawRecord) :
    ∀ seen item, item ∈ buildItems [] records seen →
      item.category = get_category_from_name item.name := by
  induction records with
  | nil =>
    intro seen item h
    cases h
  | cons r rs ih =>
    intro seen item h
    rw [buildItems_cons] at h
    by_cases hs : r.char ∈ seen
    · rw [if_pos hs] at h
      exact ih seen item h
    · rw [if_neg hs] at h
      by_cases hn : clean_emoji_name (r.en.getD r.char) = r.char ∨
          clean_emoji_name (r.en.getD r.char) = ("")
      · rw [if_pos hn] at h
        exact ih seen item h
      · rw [if_neg hn] at h
        rw [List.mem_cons] at h
        rcases h with rfl | h
        · rfl
        · exact ih _ item h

/-- C8: when the fetch of the supplementary Unicode data raises, the fetcher
    returns the empty classification map, and the (total) pipeline then
    categorizes every produced item with the name-based heuristic. -/
theorem fetch_failure_falls_back (msg : String) (records : List RawRecord)
    (item : EmojiItem)
    (hmem : item ∈ buildItems (fetch_unicode_emoji_data (Except.error msg))
      records []) :
    fetch_unicode_emoji_data (Except.error msg) = [] ∧
    item.category = get_category_from_name item.name := by
  refine ⟨rfl, ?_⟩
  exact buildItems_empty_ucats records [] item hmem

theorem fetch_failure_falls_back_witness :
    fetch_unicode_emoji_data (Except.error ("boom")) = [] ∧
    ({ emoji := ("A"), name := ("Cat"),
       category := ("Animals & Nature") } : EmojiItem).category =
      get_category_from_name
        ({ emoji := ("A"), name := ("Cat"),
           category := ("Animals & Nature") } : EmojiItem).name :=
  fetch_failure_falls_back ("boom") [{ char := ("A"), en := some (":cat:") }]
    { emoji := ("A"), name := ("Cat"), category := ("Animals & Nature") } (by decide)

theorem subgroup_not_group (s : String)
    (h : pyStartsWith ("# subgroup:") s = true) :
    pyStartsWith ("# group:") s = false := by
  unfold pyStartsWith at h ⊢
  cases hb : ("# group:").data.isPrefixOf s.data with
  | false => rfl
  | true =>
    exfalso
    rw [List.isPrefixOf_iff_prefix] at h hb
    rcases List.prefix_or_prefix_of_prefix hb h with hc | hc
    · exact absurd hc (by decide)
    · exact absurd hc (by decide)

theorem processLine_congr (st st' : ParseState) (hc : st.cmap = st'.cmap)
    (hg : st.group = st'.group) (l : String) :
    (processLine st l).cmap = (processLine st' l).cmap ∧
    (processLine st l).group = (processLine st' l).group := by
  unfold processLine
  by_cases h1 : pyStartsWith ("# group:") (pyStripStr l)
  · rw [if_pos h1, if_pos h1]
    exact ⟨hc, rfl⟩
  · rw [if_neg h1, if_neg h1]
    by_cases h2 : pyStartsWith ("# subgroup:") (pyStripStr l)
    · rw [if_pos h2, if_pos h2]
      exact ⟨hc, hg⟩
    · rw [if_neg h2, if_neg h2]
      by_cases h3 : pyStripStr l = ("") ∨ pyStartsWith ("#") (pyStripStr l)
      · rw [if_pos h3, if_pos h3]
        exact ⟨hc, hg⟩
      · rw [if_neg h3, if_neg h3]
        rw [hc, hg]
        exact ⟨rfl, rfl⟩

theorem processLine_dropped (st : ParseState) (l : String)
    (hl : keepLine l = false) :
    (processLine st l).cmap = st.cmap ∧ (processLine st l).group = st.group := by
  have hsub : pyStartsWith ("# subgroup:") (pyStripStr l) = true := by
    unfold keepLine at hl
    rwa [Bool.not_eq_false'] at hl
  have hgr : pyStartsWith ("# group:") (pyStripStr l) = false :=
    subgroup_not_group _ hsub
  unfold processLine
  rw [if_neg (by rw [hgr]; exact fun hx => Bool.false_ne_true hx), if_pos hsub]
  exact ⟨rfl, rfl⟩

theorem foldl_processLine_filter (lines : List String) :
    ∀ st st' : ParseState, st.cmap = st'.cmap → st.group = st'.group →
    (lines.foldl processLine st).cmap =
      ((lines.filter keepLine).foldl processLine st').cmap := by
  induction lines with
  | nil =>
    intro st st' hc _
    exact hc
  | cons l rest ih =>
    intro st st' hc hg
    by_cases hk : keepLine l
    · rw [List.filter_cons_of_pos hk, List.foldl_cons, List.foldl_cons]
      obtain ⟨hc', hg'⟩ := processLine_congr st st' hc hg l
      exact ih (processLine st l) (processLine st' l) hc' hg'
    · have hkf : keepLine l = false := Bool.eq_false_iff.mpr hk
      rw [List.filter_cons_of_neg (by rw [hkf]; exact fun hx => Bool.false_ne_true hx),
        List.foldl_cons]
      obtain ⟨hc', hg'⟩ := processLine_dropped st l hkf
      exact ih (processLine st l) st' (hc'.trans hc) (hg'.trans hg)

/-- C10: the parsed character-to-category map depends only on `# group:`
    context lines and data lines — two supplementary texts whose line lists
    agree after removing `# subgroup:` lines parse to the same map (the
    tracked subgroup context is never read). -/
theorem parse_ignores_subgroups (t1 t2 : String)
    (h : (pySplitOn ("\n") t1).filter keepLine =
         (pySplitOn ("\n") t2).filter keepLine) :
    fetch_unicode_emoji_data (Except.ok t1) =
      fetch_unicode_emoji_data (Except.ok t2) := by
  show ((pySplitOn ("\n") t1).foldl processLine initParseState).cmap =
       ((pySplitOn ("\n") t2).foldl processLine initParseState).cmap
  rw [foldl_processLine_filter _ initParseState initParseState rfl rfl, h,
    ← foldl_processLine_filter _ initParseState initParseState rfl rfl]

theorem parse_ignores_subgroups_witness :
    fetch_unicode_emoji_data
        (Except.ok ("# subgroup: face\n1F600 ; a ; b ; c")) =
      fetch_unicode_emoji_data (Except.ok ("1F600 ; a ; b ; c")) :=
  parse_ignores_subgroups _ _ (by decide)

theorem any_key_false {α : Type} (g : List (String × α)) (b : String)
    (h : g.any (fun p => p.1 == b) = false) : b ∉ g.map Prod.fst := by
  intro hb
  rcases List.mem_map.mp hb with ⟨p, hp, hpb⟩
  rw [List.any_eq_false] at h
  exact h p hp (beq_iff_eq.mpr hpb)

theorem appendVariant_varGroup (m : List (String × List EmojiItem)) (b : String)
    (i : EmojiItem) (hm : ∀ p ∈ m, varGroup p)
    (hb : should_group b i.name = true) :
    ∀ p ∈ appendVariant m b i, varGroup p := by
  intro p hp
  unfold appendVariant at hp
  by_cases h : m.any (fun p => p.1 == b)
  · rw [if_pos h] at hp
    rcases List.mem_map.mp hp with ⟨q, hq, rfl⟩
    show varGroup (if q.1 == b then (q.1, q.2 ++ [i]) else q)
    by_cases hqb : (q.1 == b) = true
    · rw [if_pos hqb]
      obtain ⟨hq1, hq2⟩ := hm q hq
      refine ⟨?_, ?_⟩
      · intro hx
        exact hq1 (List.append_eq_nil.mp hx).1
      · intro j hj
        rw [List.mem_append] at hj
        rcases hj with hj | hj
        · exact hq2 j hj
        · rw [List.mem_singleton] at hj
          subst hj
          show should_group q.1 j.name = true
          rw [beq_iff_eq.mp hqb]
          exact hb
    · rw [if_neg hqb]
      exact hm q hq
  · rw [if_neg h] at hp
    rw [List.mem_append] at hp
    rcases hp with hp | hp
    · exact hm p hp
    · rw [List.mem_singleton] at hp
      subst hp
      refine ⟨List.cons_ne_nil i [], ?_⟩
      intro j hj
      rw [List.mem_singleton] at hj
      subst hj
      exact hb

theorem appendVariant_keys_nodup (m : List (String × List EmojiItem)) (b : String)
    (i : EmojiItem) (hm : (m.map Prod.fst).Nodup) :
    ((appendVariant m b i).map Prod.fst).Nodup := by
  unfold appendVariant
  by_cases h : m.any (fun p => p.1 == b)
  · rw [if_pos h]
    have hkeys : (m.map (fun p => if p.1 == b then (p.1, p.2 ++ [i]) else p)).map
        Prod.fst = m.map Prod.fst := by
      rw [List.map_map]
      apply List.map_congr_left
      intro q _
      show Prod.fst (if q.1 == b then (q.1, q.2 ++ [i]) else q) = q.1
      by_cases hqb : (q.1 == b) = true
      · rw [if_pos hqb]
      · rw [if_neg hqb]
    rw [hkeys]
    exact hm
  · rw [if_neg h, List.map_append, List.nodup_append]
    refine ⟨hm, List.nodup_singleton b, ?_⟩
    intro a ha hb2
    rw [List.map_singleton, List.mem_singleton] at hb2
    subst hb2
    exact any_key_false m a (Bool.eq_false_iff.mpr h) ha

theorem insertIfAbsent_basePair (m : List (String × CatalogEntry)) (b : String)
    (e : CatalogEntry) (hm : ∀ p ∈ m, basePair p)
    (hb : should_group b e.name = false) (hv : e.variants = []) :
    ∀ p ∈ insertIfAbsent m b e, basePair p := by
  intro p hp
  unfold insertIfAbsent at hp
  by_cases h : m.any (fun p => p.1 == b)
  · rw [if_pos h] at hp
    exact hm p hp
  · rw [if_neg h] at hp
    rw [List.mem_append] at hp
    rcases hp with hp | hp
    · exact hm p hp
    · rw [List.mem_singleton] at hp
      subst hp
      exact ⟨hb, hv⟩

theorem insertIfAbsent_keys_nodup (m : List (String × CatalogEntry)) (b : String)
    (e : CatalogEntry) (hm : (m.map Prod.fst).Nodup) :
    ((insertIfAbsent m b e).map Prod.fst).Nodup := by
  unfold insertIfAbsent
  by_cases h : m.any (fun p => p.1 == b)
  · rw [if_pos h]
    exact hm
  · rw [if_neg h, List.map_append, List.nodup_append]
    refine ⟨hm, List.nodup_singleton b, ?_⟩
    intro a ha hb2
    rw [List.map_singleton, List.mem_singleton] at hb2
    subst hb2
    exact any_key_false m a (Bool.eq_false_iff.mpr h) ha

theorem groupPass_inv_aux (items : List EmojiItem) :
    ∀ st : GroupState,
    (∀ p ∈ st.grouped, basePair p) → (∀ p ∈ st.vmap, varGroup p) →
    (st.grouped.map Prod.fst).Nodup → (st.vmap.map Prod.fst).Nodup →
    ((∀ p ∈ (items.foldl groupStep st).grouped, basePair p) ∧
     (∀ p ∈ (items.foldl groupStep st).vmap, varGroup p) ∧
     ((items.foldl groupStep st).grouped.map Prod.fst).Nodup ∧
     ((items.foldl groupStep st).vmap.map Prod.fst).Nodup) := by
  induction items with
  | nil =>
    intro st h1 h2 h3 h4
    exact ⟨h1, h2, h3, h4⟩
  | cons item rest ih =>
    intro st h1 h2 h3 h4
    rw [List.foldl_cons]
    unfold groupStep
    by_cases hg : should_group (get_base_name item.name) item.name
    · rw [if_pos hg]
      exact ih _ h1 (appendVariant_varGroup _ _ _ h2 hg) h3
        (appendVariant_keys_nodup _ _ _ h4)
    · rw [if_neg hg]
      exact ih _
        (insertIfAbsent_basePair _ _ _ h1 (Bool.eq_false_iff.mpr hg) rfl) h2
        (insertIfAbsent_keys_nodup _ _ _ h3) h4

theorem groupPass_inv (items : List EmojiItem) :
    (∀ p ∈ (groupPass items).grouped, basePair p) ∧
    (∀ p ∈ (groupPass items).vmap, varGroup p) ∧
    ((groupPass items).grouped.map Prod.fst).Nodup ∧
    ((groupPass items).vmap.map Prod.fst).Nodup :=
  groupPass_inv_aux items ⟨[], []⟩
    (fun p hp => absurd hp (List.not_mem_nil p))
    (fun p hp => absurd hp (List.not_mem_nil p)) List.nodup_nil List.nodup_nil

theorem basePair_goodPair (p : String × CatalogEntry) (h : basePair p) :
    goodPair p := by
  obtain ⟨h1, h2⟩ := h
  refine ⟨Or.inl h1, ?_⟩
  intro v hv
  rw [h2] at hv
  cases hv

theorem addVariantsTo_keys (g : List (String × CatalogEntry)) (k : String)
    (vs : List EmojiItem) :
    (addVariantsTo g k vs).map Prod.fst = g.map Prod.fst := by
  unfold addVariantsTo
  rw [List.map_map]
  apply List.map_congr_left
  intro q _
  show Prod.fst (if q.1 == k then
    (q.1, { q.2 with variants := q.2.variants ++ vs.map toRef }) else q) = q.1
  by_cases hqb : (q.1 == k) = true
  · rw [if_pos hqb]
  · rw [if_neg hqb]

theorem addVariantsTo_goodPair (g : List (String × CatalogEntry)) (k : String)
    (vs : List EmojiItem) (hg : ∀ p ∈ g, goodPair p)
    (hvs : ∀ i ∈ vs, should_group k i.name = true) :
    ∀ p ∈ addVariantsTo g k vs, goodPair p := by
  intro p hp
  unfold addVariantsTo at hp
  rcases List.mem_map.mp hp with ⟨q, hq, rfl⟩
  show goodPair (if q.1 == k then
    (q.1, { q.2 with variants := q.2.variants ++ vs.map toRef }) else q)
  by_cases hqb : (q.1 == k) = true
  · rw [if_pos hqb]
    obtain ⟨hq1, hq2⟩ := hg q hq
    refine ⟨hq1, ?_⟩
    intro v hv
    rw [List.mem_append] at hv
    rcases hv with hv | hv
    · exact hq2 v hv
    · rcases List.mem_map.mp hv with ⟨i, hi, rfl⟩
      have hik : should_group k i.name = true := hvs i hi
      have hkq : q.1 = k := beq_iff_eq.mp hqb
      intro he
      have he' : i.name = q.2.name := he
      rcases hq1 with hq1 | hq1
      · rw [hkq] at hq1
        rw [he'] at hik
        rw [hik] at hq1
        exact Bool.noConfusion hq1
      · have hne := should_group_ne k i.name hik
        rw [hq1, hkq] at he'
        exact hne he'.symm
  · rw [if_neg hqb]
    exact hg q hq

theorem synthEntry_goodPair (b : String) (first : EmojiItem) (vs : List EmojiItem)
    (hvs : ∀ i ∈ vs, should_group b i.name = true) :
    goodPair (b, synthEntry b first vs) := by
  refine ⟨Or.inr rfl, ?_⟩
  intro v hv
  rcases List.mem_map.mp hv with ⟨i, hi, rfl⟩
  intro he
  have he' : i.name = b := he
  exact should_group_ne b i.name (hvs i hi) he'.symm

theorem attachVariants_goodPair (vm : List (String × List EmojiItem)) :
    ∀ g : List (String × CatalogEntry),
    (∀ p ∈ g, goodPair p) → (∀ p ∈ vm, varGroup p) →
    ∀ p ∈ attachVariants g vm, goodPair p := by
  induction vm with
  | nil =>
    intro g hg _ p hp
    exact hg p hp
  | cons q rest ih =>
    intro g hg hvm p hp
    obtain ⟨b, vs⟩ := q
    unfold attachVariants at hp
    by_cases hk : g.any (fun p => p.1 == b)
    · rw [if_pos hk] at hp
      refine ih _ ?_ (fun p' hp' => hvm p' (List.mem_cons_of_mem _ hp')) p hp
      exact addVariantsTo_goodPair g b vs hg
        (fun i hi => (hvm (b, vs) (List.mem_cons_self _ _)).2 i hi)
    · rw [if_neg hk] at hp
      cases vs with
      | nil => exact ih g hg (fun p' hp' => hvm p' (List.mem_cons_of_mem _ hp')) p hp
      | cons first rest2 =>
        refine ih _ ?_ (fun p' hp' => hvm p' (List.mem_cons_of_mem _ hp')) p hp
        intro p' hp'
        rw [List.mem_append] at hp'
        rcases hp' with hp' | hp'
        · exact hg p' hp'
        · rw [List.mem_singleton] at hp'
          subst hp'
          exact synthEntry_goodPair b first (first :: rest2)
            (fun i hi => (hvm (b, first :: rest2) (List.mem_cons_self _ _)).2 i hi)

/-- C1 (amended): no catalog entry — base or synthesized — lists its own
    `(character, displayName)` pair among its variants: every attached
    variant differs from its entry in the display name. -/
theorem catalog_no_self_pair (records : List RawRecord)
    (response : Except String String) (e : CatalogEntry)
    (he : e ∈ (generate_emoji_data records response).emojis)
    (v : VariantRef) (hv : v ∈ e.variants) :
    ¬ (v.emoji = e.emoji ∧ v.name = e.name) := by
  rintro ⟨-, hn⟩
  have he' : e ∈ sortEntries
      ((attachVariants
        (groupPass (buildItems (fetch_unicode_emoji_data response) records [])).grouped
        (groupPass (buildItems (fetch_unicode_emoji_data response) records [])).vmap).map
        (fun p => p.2)) := he
  unfold sortEntries at he'
  rw [List.Perm.mem_iff (List.perm_insertionSort entryLe _)] at he'
  rcases List.mem_map.mp he' with ⟨p, hp, hpe⟩
  obtain ⟨hinv1, hinv2, -, -⟩ :=
    groupPass_inv (buildItems (fetch_unicode_emoji_data response) records [])
  have hgood := attachVariants_goodPair _ _
    (fun p' hp' => basePair_goodPair p' (hinv1 p' hp')) hinv2 p hp
  obtain ⟨-, hgood2⟩ := hgood
  rw [← hpe] at hv hn
  exact hgood2 v hv hn

/-- C1 is refuted as stated: when a variant group has no directly-seen base,
    the synthesized entry reuses the first variant's character, so that
    variant's character equals the entry's own character. -/
theorem catalog_self_character_counterexample :
    ∃ e ∈ (generate_emoji_data
        [{ char := ("B"), en := some (":cat_light_skin_tone:") }]
        (Except.error ("no network"))).emojis,
      ∃ v ∈ e.variants, v.emoji = e.emoji := by
  decide

theorem catalog_no_self_pair_witness :
    ¬ ((("B") : String) = ("A") ∧ (("Cat Light Skin Tone") : String) = ("Cat")) :=
  catalog_no_self_pair
    [{ char := ("A"), en := some (":cat:") },
     { char := ("B"), en := some (":cat_light_skin_tone:") }]
    (Except.error ("no network"))
    { emoji := ("A"), name := ("Cat"),
      variants := [{ emoji := ("B"), name := ("Cat Light Skin Tone") }],
      category := ("Animals & Nature"), searchable := ("a cat") }
    (by decide)
    { emoji := ("B"), name := ("Cat Light Skin Tone") } (by decide)

theorem attachVariants_mem_preserved (vm : List (String × List EmojiItem)) :
    ∀ (g : List (String × CatalogEntry)) (p : String × CatalogEntry),
    p ∈ g → p.1 ∉ vm.map Prod.fst → p ∈ attachVariants g vm := by
  induction vm with
  | nil =>
    intro g p hp _
    exact hp
  | cons q rest ih =>
    intro g p hp hnk
    obtain ⟨b, vs⟩ := q
    rw [List.map_cons] at hnk
    have hne : p.1 ≠ b := fun he => hnk (List.mem_cons.mpr (Or.inl he))
    have hrest : p.1 ∉ rest.map Prod.fst := fun hm => hnk (List.mem_cons.mpr (Or.inr hm))
    unfold attachVariants
    by_cases hk : g.any (fun p => p.1 == b)
    · rw [if_pos hk]
      refine ih _ p ?_ hrest
      unfold addVariantsTo
      refine List.mem_map.mpr ⟨p, hp, ?_⟩
      rw [if_neg (by rw [beq_eq_false_iff_ne.mpr hne]; exact fun hx => Bool.false_ne_true hx)]
    · rw [if_neg hk]
      cases vs with
      | nil => exact ih g p hp hrest
      | cons f t => exact ih _ p (List.mem_append_left _ hp) hrest

theorem attachVariants_synth (vm : List (String × List EmojiItem)) :
    ∀ (g : List (String × CatalogEntry)) (b : String) (vs : List EmojiItem)
      (first : EmojiItem) (rest2 : List EmojiItem),
    (b, vs) ∈ vm → vs = first :: rest2 → (vm.map Prod.fst).Nodup →
    b ∉ g.map Prod.fst →
    (b, synthEntry b first vs) ∈ attachVariants g vm := by
  induction vm with
  | nil =>
    intro g b vs f r2 h
    cases h
  | cons q rest ih =>
    intro g b vs f r2 hmem hvs hnd hng
    obtain ⟨b', vs'⟩ := q
    rw [List.mem_cons] at hmem
    rw [List.map_cons] at hnd
    unfold attachVariants
    rcases hmem with heq | hmem
    · rw [Prod.mk.injEq] at heq
      obtain ⟨hb, hv⟩ := heq
      subst hb
      subst hv
      have hkf : g.any (fun p => p.1 == b) = false := by
        rw [List.any_eq_false]
        intro x hx hxb
        exact hng (List.mem_map.mpr ⟨x, hx, beq_iff_eq.mp hxb⟩)
      rw [if_neg (by rw [hkf]; exact fun hx => Bool.false_ne_true hx)]
      subst hvs
      refine attachVariants_mem_preserved rest _ _ ?_ ?_
      · exact List.mem_append_right _ (List.mem_singleton.mpr rfl)
      · exact (List.nodup_cons.mp hnd).1
    · have hb' : b ≠ b' := by
        intro he
        have hbk : b ∈ rest.map Prod.fst := List.mem_map.mpr ⟨(b, vs), hmem, rfl⟩
        rw [he] at hbk
        exact (List.nodup_cons.mp hnd).1 hbk
      have hnd' : (rest.map Prod.fst).Nodup := (List.nodup_cons.mp hnd).2
      by_cases hk : g.any (fun p => p.1 == b')
      · rw [if_pos hk]
        refine ih _ b vs f r2 hmem hvs hnd' ?_
        rw [addVariantsTo_keys]
        exact hng
      · rw [if_neg hk]
        cases vs' with
        | nil => exact ih g b vs f r2 hmem hvs hnd' hng
        | cons f' t' =>
          refine ih _ b vs f r2 hmem hvs hnd' ?_
          rw [List.map_append, List.map_singleton]
          intro hbm
          rw [List.mem_append] at hbm
          rcases hbm with hbm | hbm
          · exact hng hbm
          · rw [List.mem_singleton] at hbm
            exact hb' hbm

/-- C5: a variant group whose base name no base candidate ever produced is
    synthesized from its first encountered variant: the entry's character and
    category come from that first variant, its display name is the group's
    base name, and its variants are all of the group's variants — the first
    included — in encounter order (this is exactly `synthEntry`). -/
theorem synthesized_entry_spec (records : List RawRecord)
    (response : Except String String) (b : String) (vs : List EmojiItem)
    (h1 : (b, vs) ∈ (groupPass (buildItems (fetch_unicode_emoji_data response)
      records [])).vmap)
    (h2 : b ∉ ((groupPass (buildItems (fetch_unicode_emoji_data response)
      records [])).grouped.map Prod.fst)) :
    ∃ first rest, vs = first :: rest ∧
      synthEntry b first vs ∈ (generate_emoji_data records response).emojis := by
  obtain ⟨-, hv, -, hvnd⟩ :=
    groupPass_inv (buildItems (fetch_unicode_emoji_data response) records [])
  obtain ⟨hne, -⟩ := hv (b, vs) h1
  match vs, hne, h1 with
  | first :: rest, _, h1 =>
    refine ⟨first, rest, rfl, ?_⟩
    have hmem := attachVariants_synth _ _ b (first :: rest) first rest h1 rfl hvnd h2
    show synthEntry b first (first :: rest) ∈ sortEntries _
    unfold sortEntries
    rw [List.Perm.mem_iff (List.perm_insertionSort entryLe _)]
    exact List.mem_map.mpr ⟨(b, synthEntry b first (first :: rest)), hmem, rfl⟩

theorem synthesized_entry_spec_witness :
    ∃ first rest,
      [({ emoji := ("B"), name := ("Cat Light Skin Tone"),
          category := ("Animals & Nature") } : EmojiItem)] = first :: rest ∧
      synthEntry ("Cat") first
          [{ emoji := ("B"), name := ("Cat Light Skin Tone"),
             category := ("Animals & Nature") }] ∈
        (generate_emoji_data
          [{ char := ("B"), en := some (":cat_light_skin_tone:") }]
          (Except.error ("no network"))).emojis :=
  synthesized_entry_spec
    [{ char := ("B"), en := some (":cat_light_skin_tone:") }]
    (Except.error ("no network")) ("Cat")
    [{ emoji := ("B"), name := ("Cat Light Skin Tone"),
       category := ("Animals & Nature") }]
    (by decide) (by decide)

/-- C7: the final entries are sorted ascending by the key
    `(category, displayName)` (lexicographically, `entryLe`), and
    `categories` is the strictly sorted enumeration of exactly the category
    labels that occur among the entries. -/
theorem catalog_sorted_spec (records : List RawRecord)
    (response : Except String String) :
    List.Pairwise entryLe (generate_emoji_data records response).emojis ∧
    List.Pairwise (fun a b : String => a < b)
      (generate_emoji_data records response).categories ∧
    ∀ c : String, c ∈ (generate_emoji_data records response).categories ↔
      ∃ e ∈ (generate_emoji_data records response).emojis, e.category = c := by
  refine ⟨?_, ?_, ?_⟩
  · exact List.sorted_insertionSort entryLe _
  · have hs : List.Pairwise strLe (sortCats (List.dedup
        ((catalogEntries records response).map (fun e => e.category)))) :=
      List.sorted_insertionSort strLe _
    have hn : (sortCats (List.dedup
        ((catalogEntries records response).map (fun e => e.category)))).Nodup := by
      unfold sortCats
      exact (List.perm_insertionSort strLe _).nodup_iff.mpr (List.nodup_dedup _)
    exact List.Pairwise.imp (fun h => lt_of_le_of_ne h.1 h.2) (hs.and hn)
  · intro c
    show c ∈ sortCats (List.dedup
      ((catalogEntries records response).map (fun e => e.category))) ↔ _
    unfold sortCats
    rw [List.Perm.mem_iff (List.perm_insertionSort strLe _), List.mem_dedup,
      List.mem_map]
    exact Iff.rfl
